import Mathlib

/-!
Verification of the Spine-Toolbox workflow graph engine
(`spinetoolbox/executioner.py`) against its natural-language specification.

The development shallowly embeds the two classes of that module:

* `DirectedGraphHandler` — maintains the list of directed graphs (`_dags`)
  of the project and repairs it under node/edge addition and removal
  (split/merge logic), plus the execution-order computation
  (`calc_exec_order`) and the connectivity probe (`nodes_connected`).
* `ExecutionInstance` — the sequential execution driver
  (`start_execution`, `item_execution_finished`, `stop`) and the resource
  lookup helpers (`find_file`, `find_optional_files`).

Graphs are `networkx.DiGraph` objects in the source; they are embedded as a
pair of lists (node list, edge list) kept in insertion order, which is
exactly the observable ordering behaviour of networkx (dict-backed, keyed
in insertion order).  Node names are strings in the source; the embedding
uses `Option Nat`, where `some k` plays the role of a string name and
`none` plays the role of the integer `0` used by `calc_exec_order` as a
dummy source node (the source comments that the integer can never collide
with a string name; here the `none`/`some` distinction provides the same
guarantee).  Python exceptions (crashes on absent nodes/edges) are embedded
as `Option` results.
-/

/-- Node identity. `some k` embeds a project item name (a Python string);
`none` embeds the integer `0` used internally as a dummy BFS source. -/
abbrev NodeName := Option Nat

/-- Embedding of a `networkx.DiGraph`: node list and directed edge list,
both in insertion order (networkx iterates nodes/edges in insertion
order). -/
structure DiGraph where
  nodes : List NodeName
  edges : List (NodeName × NodeName)
  deriving DecidableEq, Repr

/-- `G.has_node(n)`. -/
def DiGraph.has_node (g : DiGraph) (n : NodeName) : Bool :=
  g.nodes.contains n

/-- `G.has_edge(u, v)`. -/
def DiGraph.has_edge (g : DiGraph) (u v : NodeName) : Bool :=
  g.edges.contains (u, v)

/-- `G.add_node(n)`: no-op when the node is already present, otherwise
appended (networkx preserves first-insertion order). -/
def DiGraph.add_node (g : DiGraph) (n : NodeName) : DiGraph :=
  if g.has_node n then g else ⟨g.nodes ++ [n], g.edges⟩

/-- `G.add_edge(u, v)`: inserts the missing endpoints as nodes, then the
edge itself when not already present. -/
def DiGraph.add_edge (g : DiGraph) (u v : NodeName) : DiGraph :=
  let g1 := g.add_node u
  let g2 := g1.add_node v
  if g2.has_edge u v then g2 else ⟨g2.nodes, g2.edges ++ [(u, v)]⟩

/-- `G.remove_edge(u, v)` (callers in the embedded code only remove edges
that are present, where networkx removes exactly that edge). -/
def DiGraph.remove_edge (g : DiGraph) (u v : NodeName) : DiGraph :=
  ⟨g.nodes, g.edges.filter (fun e => e ≠ (u, v))⟩

/-- `G.remove_node(n)`: removes the node and every incident edge. -/
def DiGraph.remove_node (g : DiGraph) (n : NodeName) : DiGraph :=
  ⟨g.nodes.filter (fun x => x ≠ n),
   g.edges.filter (fun e => e.1 ≠ n && e.2 ≠ n)⟩

/-- `G.in_degree(n)`. -/
def DiGraph.in_degree (g : DiGraph) (n : NodeName) : Nat :=
  g.edges.countP (fun e => e.2 = n)

/-- `G.out_degree(n)`. -/
def DiGraph.out_degree (g : DiGraph) (n : NodeName) : Nat :=
  g.edges.countP (fun e => e.1 = n)

/-- `G.degree(n)` = in-degree + out-degree; a self-loop contributes `2`. -/
def DiGraph.degree (g : DiGraph) (n : NodeName) : Nat :=
  g.out_degree n + g.in_degree n

/-- `nx.is_isolate(G, n)`: degree zero. -/
def DiGraph.is_isolate (g : DiGraph) (n : NodeName) : Bool :=
  g.degree n = 0

/-- One expansion step of directed reachability: add every node with an
in-edge from the current set. -/
def DiGraph.reach_step (g : DiGraph) (s : List NodeName) : List NodeName :=
  s ++ g.nodes.filter (fun v => !s.contains v && s.any (fun u => g.edges.contains (u, v)))

/-- Directed reachability set from `a` (including `a` itself), computed by
iterating the one-step expansion enough times to saturate (any reachable
node is reached within `|nodes|` steps). -/
def DiGraph.reach_list (g : DiGraph) (a : NodeName) : List NodeName :=
  (g.reach_step)^[g.nodes.length + 1] [a]

/-- `nx.has_path(G, u, v)`: directed path existence; `has_path(G, u, u)` is
true (the trivial path), matching networkx. -/
def DiGraph.has_path (g : DiGraph) (u v : NodeName) : Bool :=
  (g.reach_list u).contains v

/-- `nx.ancestors(G, a)`: the set of nodes with a directed path to `a`,
excluding `a` itself (networkx always excludes the source, self-loop or
not).  Embedded as a filter over the node list. -/
def DiGraph.ancestors (g : DiGraph) (a : NodeName) : List NodeName :=
  g.nodes.filter (fun x => x ≠ a && g.has_path x a)

/-- `nx.descendants(G, a)`: nodes reachable from `a`, excluding `a`. -/
def DiGraph.descendants (g : DiGraph) (a : NodeName) : List NodeName :=
  g.nodes.filter (fun x => x ≠ a && g.has_path a x)

/-- One directed edge step, as a relation. -/
def dir_step (g : DiGraph) (u v : NodeName) : Prop :=
  (u, v) ∈ g.edges

/-- One edge step ignoring direction. -/
def undir_step (g : DiGraph) (u v : NodeName) : Prop :=
  (u, v) ∈ g.edges ∨ (v, u) ∈ g.edges

/-- `a` and `b` lie in the same weakly-connected component: they are joined
by a chain of edges traversed in either direction. -/
def weak_conn (g : DiGraph) (a b : NodeName) : Prop :=
  Relation.ReflTransGen (undir_step g) a b

theorem list_contains_mem {α : Type} [BEq α] [LawfulBEq α] {l : List α} {a : α}
    (h : l.contains a = true) : a ∈ l := by
  simpa using h

theorem list_mem_contains {α : Type} [BEq α] [LawfulBEq α] {l : List α} {a : α}
    (h : a ∈ l) : l.contains a = true := by
  simpa using h

theorem undir_step_symm (g : DiGraph) : Symmetric (undir_step g) := by
  intro x y h
  cases h with
  | inl h => exact Or.inr h
  | inr h => exact Or.inl h

theorem weak_conn_symm {g : DiGraph} {a b : NodeName} (h : weak_conn g a b) :
    weak_conn g b a :=
  Relation.ReflTransGen.symmetric (undir_step_symm g) h

theorem weak_conn_trans {g : DiGraph} {a b c : NodeName}
    (h1 : weak_conn g a b) (h2 : weak_conn g b c) : weak_conn g a c :=
  Relation.ReflTransGen.trans h1 h2

/-- Everything produced by one reachability expansion step is either in the
input set or one directed edge away from it. -/
theorem mem_reach_step {g : DiGraph} {s : List NodeName} {x : NodeName}
    (hx : x ∈ g.reach_step s) : x ∈ s ∨ ∃ u ∈ s, (u, x) ∈ g.edges := by
  unfold DiGraph.reach_step at hx
  rcases List.mem_append.mp hx with h | h
  · exact Or.inl h
  · right
    have h' := List.of_mem_filter h
    have h2 := (Bool.and_eq_true _ _).mp h'
    rcases List.any_eq_true.mp h2.2 with ⟨u, hu, he⟩
    exact ⟨u, hu, list_contains_mem he⟩

/-- Soundness of the iterated reachability set: every member is reachable
from `a` along directed edges. -/
theorem mem_reach_list_sound {g : DiGraph} {a x : NodeName}
    (hx : x ∈ g.reach_list a) : Relation.ReflTransGen (dir_step g) a x := by
  unfold DiGraph.reach_list at hx
  generalize hn : g.nodes.length + 1 = n at hx
  clear hn
  induction n generalizing x with
  | zero =>
    simp only [Function.iterate_zero, id_eq, List.mem_singleton] at hx
    subst hx
    exact Relation.ReflTransGen.refl
  | succ k ih =>
    rw [Function.iterate_succ_apply'] at hx
    rcases mem_reach_step hx with h | ⟨u, hu, he⟩
    · exact ih h
    · exact Relation.ReflTransGen.tail (ih hu) he

/-- Soundness of the path test: a positive `has_path` answer yields a real
directed path. -/
theorem has_path_sound {g : DiGraph} {u v : NodeName}
    (h : g.has_path u v = true) : Relation.ReflTransGen (dir_step g) u v := by
  unfold DiGraph.has_path at h
  exact mem_reach_list_sound (list_contains_mem h)

/-- A directed path is in particular an undirected walk. -/
theorem dir_path_weak_conn {g : DiGraph} {u v : NodeName}
    (h : Relation.ReflTransGen (dir_step g) u v) : weak_conn g u v :=
  Relation.ReflTransGen.mono (fun _ _ hs => Or.inl hs) h

/-- `DirectedGraphHandler.nodes_connected(dag, a, b)`: probes whether `a`
and `b` stay connected when direction is ignored, by checking, for each
strict ancestor and descendant `x` of `a`, directed-path existence `x→b`
or `b→x`.  The source loops with early return; the embedding folds the
same checks with boolean or. -/
def nodes_connected (dag : DiGraph) (a b : NodeName) : Bool :=
  (dag.ancestors a).any (fun x => dag.has_path x b || dag.has_path b x) ||
  (dag.descendants a).any (fun x => dag.has_path x b || dag.has_path b x)

/-- `DirectedGraphHandler.source_nodes(g)`: nodes with in-degree 0, in node
order. -/
def source_nodes (g : DiGraph) : List NodeName :=
  g.nodes.filter (fun n => g.in_degree n = 0)

/-- `nx.is_directed_acyclic_graph(g)`: the graph has no directed cycle.  A
directed cycle exists exactly when some edge `(u, v)` is closed by a
directed path `v →* u` (a self-loop is the case `u = v`). -/
def is_directed_acyclic_graph (g : DiGraph) : Bool :=
  !g.edges.any (fun e => g.has_path e.2 e.1)

/-- The edges participating in a cycle, as described by the specification:
all edges inside a strongly-connected component of size above one, plus all
self-loops.  An edge `(u, v)` lies in such a component (or is a self-loop)
exactly when a directed path `v →* u` closes it. -/
def spec_cycle_edges (g : DiGraph) : List (NodeName × NodeName) :=
  g.edges.filter (fun e => g.has_path e.2 e.1)

/-- Work loop of `nx.bfs_edges`: queue of discovered nodes, visited list,
accumulated tree edges.  Out-neighbors are scanned in edge insertion
order, matching networkx adjacency order.  Each node enters the queue at
most once, so `|nodes| + 1` steps of fuel suffice. -/
def bfs_edges_aux (g : DiGraph) :
    Nat → List NodeName → List NodeName → List (NodeName × NodeName) →
    List (NodeName × NodeName)
  | 0, _, _, acc => acc
  | _ + 1, _, [], acc => acc
  | fuel + 1, visited, u :: queue, acc =>
    let nbrs := ((g.edges.filter (fun e => e.1 = u)).map (fun e => e.2)).filter
      (fun v => !visited.contains v)
    bfs_edges_aux g fuel (visited ++ nbrs) (queue ++ nbrs)
      (acc ++ nbrs.map (fun v => (u, v)))

/-- `nx.bfs_edges(g, s)`: breadth-first tree edges from `s` in discovery
order. -/
def bfs_edges (g : DiGraph) (s : NodeName) : List (NodeName × NodeName) :=
  bfs_edges_aux g (g.nodes.length + 1) [s] [s] []

/-- `DirectedGraphHandler.calc_exec_order(g)`.  Returns the bfs-ordered
node list, and — because the source temporarily mutates `g` (dummy source
node `0`, embedded as `none`, plus edges to every real source) — also the
graph as it stands when the method returns. Returns an empty order when
the graph is not a DAG, or when it has no source nodes. -/
def calc_exec_order (g : DiGraph) : List NodeName × DiGraph :=
  if !is_directed_acyclic_graph g then ([], g)
  else
    match source_nodes g with
    | [] => ([], g)
    | [s] =>
      let edges_to_execute := bfs_edges g s
      ([s] ++ edges_to_execute.map (fun e => e.2), g)
    | s1 :: s2 :: rest =>
      let sources := s1 :: s2 :: rest
      let g1 := g.add_node none
      let g2 := sources.foldl (fun h s => h.add_edge none s) g1
      let edges_to_execute := bfs_edges g2 none
      let g3 := sources.foldl (fun h s => h.remove_edge none s) g2
      let g4 := g3.remove_node none
      (edges_to_execute.map (fun e => e.2), g4)

/-- The handler's `_dags` list: the GraphStore. -/
abbrev Store := List DiGraph

/-- `DirectedGraphHandler.add_dag_node(node_name)`: builds a fresh
singleton graph and appends it to `_dags`.  The source performs no
existence check whatsoever. -/
def add_dag_node (s : Store) (n : NodeName) : Store :=
  s ++ [⟨[n], []⟩]

/-- `DirectedGraphHandler.dag_with_node(node_name)`: first graph of the
list containing the node; `none` embeds the logged `None` return. -/
def dag_with_node (s : Store) (n : NodeName) : Option DiGraph :=
  s.find? (fun g => g.has_node n)

/-- `DirectedGraphHandler.node_is_isolated(node, allow_self_loop)`: looks
the node's graph up in the store and tests its degree.  With
`allow_self_loop = true` a single self-loop (which contributes 2 to the
degree) is discounted, exactly as the source computes `deg - 2 == 0`.
`none` embeds the crash that the source would suffer (attribute access on
`None`) when no graph contains the node. -/
def node_is_isolated (s : Store) (n : NodeName) (allow_self_loop : Bool) :
    Option Bool :=
  (dag_with_node s n).map (fun g =>
    if !allow_self_loop then g.is_isolate n
    else if !(g.has_edge n n) then g.is_isolate n
    else decide (g.degree n - 2 = 0))

/-- `nx.union(g, h)`: disjoint union; networkx raises when the node sets
intersect, embedded as `none`. -/
def union_graphs (g h : DiGraph) : Option DiGraph :=
  if g.nodes.any (fun n => h.nodes.contains n) then none
  else some ⟨g.nodes ++ h.nodes, g.edges ++ h.edges⟩

/-- `DirectedGraphHandler.add_graph_edge(src_node, dst_node)`.  Graph
identity (`==` on `DiGraph` objects, which in Python is object identity)
is embedded by comparing the positions returned by the first-match scans.
`none` embeds the crashes on absent nodes (`None.add_edge`,
`nx.union(None, ...)`). -/
def add_graph_edge (s : Store) (a b : NodeName) : Option Store :=
  let oi := s.findIdx? (fun g => g.has_node a)
  let oj := s.findIdx? (fun g => g.has_node b)
  if a = b then
    oi.map (fun i => s.modify (fun g => g.add_edge a b) i)
  else
    match oi, oj with
    | some i, some j =>
      if i = j then some (s.modify (fun g => g.add_edge a b) i)
      else
        match union_graphs (s.getD i ⟨[], []⟩) (s.getD j ⟨[], []⟩) with
        | none => none
        | some u =>
          let u2 := u.add_edge a b
          let s1 := s ++ [u2]
          some ((s1.eraseIdx (max i j)).eraseIdx (min i j))
    | _, _ => none

/-- `nx.edges(dag, nbunch)` for a directed graph: the out-edges of the
nodes of `nbunch`, scanned per node in edge insertion order. -/
def out_edges_of (g : DiGraph) (ns : List NodeName) : List (NodeName × NodeName) :=
  ns.foldr (fun n acc => g.edges.filter (fun e => e.1 = n) ++ acc) []

/-- `G.add_edges_from(es)` starting from `nx.DiGraph()`: fold of
`add_edge` over the edge list. -/
def graph_from_edges (es : List (NodeName × NodeName)) : DiGraph :=
  es.foldl (fun g e => g.add_edge e.1 e.2) ⟨[], []⟩

/-- The "descendant graph" built by `remove_graph_edge` around the source
endpoint: the out-edges of `src`'s descendants, of its ancestors, and of
`src` itself, poured into a fresh graph. -/
def descendant_closure_graph (dag : DiGraph) (src : NodeName) : DiGraph :=
  graph_from_edges
    (out_edges_of dag (dag.descendants src) ++
     out_edges_of dag (dag.ancestors src) ++
     out_edges_of dag [src])

/-- `DirectedGraphHandler.remove_graph_edge(src_node, dst_node)`, split
into a scan (`rge_go`) locating the first graph holding the edge — the
embedding of `dag_with_edge` — with the already-scanned prefix carried
along so that the subsequent whole-store lookups of `node_is_isolated` see
the full, already-mutated `_dags` list.  `none` embeds the source's crash
when `dag_with_edge` returns `None`. -/
def rge_go (a b : NodeName) (pre : Store) : Store → Option Store
  | [] => none
  | d :: rest =>
    if d.has_edge a b then
      if a = b then some (pre ++ d.remove_edge a b :: rest)
      else
        let d1 := d.remove_edge a b
        let s1 := pre ++ d1 :: rest
        match node_is_isolated s1 a false with
        | none => none
        | some true => some (pre ++ d1.remove_node a :: rest ++ [⟨[a], []⟩])
        | some false =>
          match node_is_isolated s1 b false with
          | none => none
          | some true => some (pre ++ d1.remove_node b :: rest ++ [⟨[b], []⟩])
          | some false =>
            if nodes_connected d1 a b then some s1
            else
              let dg := descendant_closure_graph d1 a
              let ag := descendant_closure_graph d1 b
              some (pre ++ rest ++ [dg, ag])
    else rge_go a b (pre ++ [d]) rest

/-- `DirectedGraphHandler.remove_graph_edge(src_node, dst_node)`. -/
def remove_graph_edge (s : Store) (a b : NodeName) : Option Store :=
  rge_go a b [] s

/-- How many graphs of the store contain the node — the partition
invariant demands this be exactly one for every live node. -/
def graphs_containing (s : Store) (n : NodeName) : Nat :=
  s.countP (fun g => g.has_node n)

/-- The isolation notion used by the specification's description of edge
removal: degree after discounting a self-loop pair is zero. -/
def spec_isolated (g : DiGraph) (n : NodeName) : Prop :=
  g.degree n - (if (n, n) ∈ g.edges then 2 else 0) = 0

/-- Well-formedness facts that hold of every `networkx` graph: no
duplicate nodes or edges, and edge endpoints are nodes. -/
def GraphWF (g : DiGraph) : Prop :=
  g.nodes.Nodup ∧ g.edges.Nodup ∧
  ∀ e ∈ g.edges, e.1 ∈ g.nodes ∧ e.2 ∈ g.nodes

/-- Mutable state of `ExecutionInstance` relevant to the driver:
`execution_list` (ordered nodes still to run, first at index 0) and
`running_item`. -/
structure ExecState where
  execution_list : List NodeName
  running_item : Option NodeName
  deriving DecidableEq, Repr

/-- Observable outcome of one driver step: the new state, the value
emitted on `graph_execution_finished_signal` if any (`0` = run completed,
`-1` = run failed, `-2` = run user-stopped), and whether
`execute_project_item` was invoked (a node execution was started). -/
structure DriverStep where
  state : ExecState
  emitted : Option Int
  started : Bool
  deriving DecidableEq, Repr

/-- `ExecutionInstance.item_execution_finished(item_finish_state)`:
`-1` and `-2` end the run immediately with the corresponding signal; any
other value pops the next item and starts it, or emits `0` when the list
is exhausted (the source catches the `IndexError` of `pop(0)`). -/
def item_execution_finished (s : ExecState) (item_finish_state : Int) :
    DriverStep :=
  if item_finish_state = -1 then ⟨s, some (-1), false⟩
  else if item_finish_state = -2 then ⟨s, some (-2), false⟩
  else
    match s.execution_list with
    | [] => ⟨s, some 0, false⟩
    | x :: rest => ⟨⟨rest, some x⟩, none, true⟩

/-- `ExecutionInstance.start_execution()`: pops index 0 unguarded and
starts that item; `none` embeds the uncaught `IndexError` on an empty
list.  On success the popped node is the new `running_item` and its
execution has been started. -/
def start_execution (s : ExecState) : Option ExecState :=
  match s.execution_list with
  | [] => none
  | x :: rest => some ⟨rest, some x⟩

/-- Observable outcome of `ExecutionInstance.stop()`: whether the "No
running item" message was reported, the value emitted on
`graph_execution_finished_signal` if any, and the item whose
`stop_execution` was invoked, if any. -/
structure StopStep where
  msg_no_running : Bool
  emitted : Option Int
  item_stop_called : Option NodeName
  deriving DecidableEq, Repr

/-- `ExecutionInstance.stop()`: with no running item it reports "No
running item" and emits `-2` on `graph_execution_finished_signal`;
otherwise it forwards `stop_execution()` to the running item and emits
nothing itself.  The driver state is not modified in either case. -/
def ExecState.stop (s : ExecState) : StopStep :=
  match s.running_item with
  | none => ⟨true, some (-2), none⟩
  | some it => ⟨false, none, some it⟩

/-- Resource bookkeeping of `ExecutionInstance`: Data Store references per
dialect (`ds_refs`, an insertion-ordered dictionary), Data Connection
references and files, and Tool output files.  Locators are strings. -/
structure ResourceState where
  ds_refs : List (String × List String)
  dc_refs : List String
  dc_files : List String
  tool_output_files : List String
  deriving DecidableEq, Repr

/-- `self.ds_refs[dialect]` with the `KeyError → empty` handling used by
the lookups. -/
def ds_refs_get (rs : ResourceState) (dialect : String) : List String :=
  match rs.ds_refs.find? (fun p => p.1 = dialect) with
  | some p => p.2
  | none => []

/-- The tail component of `os.path.split(p)` on a POSIX path: everything
after the last separator. -/
def path_tail (p : String) : String :=
  String.mk ((p.toList.reverse.takeWhile (fun c => c ≠ '/')).reverse)

/-- One lookup pass of `find_file`: first entry whose final path segment
equals the searched name. -/
def find_by_tail (l : List String) (filename : String) : Option String :=
  l.find? (fun r => path_tail r = filename)

/-- `ExecutionInstance.find_file(filename)`: scans sqlite, mysql, mssql,
postgresql and oracle Data Store references, then Data Connection
references, Data Connection files, and Tool output files, returning the
first entry whose final path segment equals `filename`. -/
def find_file (rs : ResourceState) (filename : String) : Option String :=
  (find_by_tail (ds_refs_get rs "sqlite") filename).or
  ((find_by_tail (ds_refs_get rs "mysql") filename).or
  ((find_by_tail (ds_refs_get rs "mssql") filename).or
  ((find_by_tail (ds_refs_get rs "postgresql") filename).or
  ((find_by_tail (ds_refs_get rs "oracle") filename).or
  ((find_by_tail rs.dc_refs filename).or
  ((find_by_tail rs.dc_files filename).or
  (find_by_tail rs.tool_output_files filename)))))))

/-- Character-class body match for `fnmatch` patterns: `a-z` ranges, other
characters literally. -/
def class_match : List Char → Char → Bool
  | a :: '-' :: b :: rest, c =>
    (a ≤ c && c ≤ b) || class_match rest c
  | a :: rest, c => (c = a) || class_match rest c
  | [], _ => false

/-- Splits a character-class body at its closing `]`.  The scan starts
after an optional leading `!` and treats a `]` in first position as a
literal member, as `fnmatch.translate` does.  `none` when the class is
never closed (the `[` is then matched literally). -/
def split_class (p : List Char) : Option (Bool × List Char × List Char) :=
  let neg := p.head? = some '!'
  let q := if neg then p.tail else p
  match q with
  | [] => none
  | c0 :: q1 =>
    match q1.findIdx? (fun c => c = ']') with
    | none => none
    | some i => some (neg, c0 :: q1.take i, q1.drop (i + 1))

/-- Fuel-driven whole-string glob match implementing the semantics of
`fnmatch.fnmatch` on POSIX (case preserved): `*` any run, `?` any single
character, `[seq]`/`[!seq]` character classes, unclosed `[` literal.
Every recursive call shrinks name length plus pattern length, so
`|name| + |pattern| + 1` fuel is exact. -/
def glob_aux : Nat → List Char → List Char → Bool
  | 0, _, _ => false
  | _ + 1, [], [] => true
  | fuel + 1, s, '*' :: ps =>
    glob_aux fuel s ps ||
      (match s with
       | [] => false
       | _ :: s1 => glob_aux fuel s1 ('*' :: ps))
  | _ + 1, [], _ :: _ => false
  | _ + 1, _ :: _, [] => false
  | fuel + 1, _ :: s, '?' :: ps => glob_aux fuel s ps
  | fuel + 1, c :: s, '[' :: ps =>
    (match split_class ps with
     | some (neg, body, rest) =>
       (class_match body c != neg) && glob_aux fuel s rest
     | none => (c = '[') && glob_aux fuel s ps)
  | fuel + 1, c :: s, pc :: ps => (c = pc) && glob_aux fuel s ps

/-- `fnmatch.fnmatch(name, pattern)`. -/
def fn_match (name pattern : String) : Bool :=
  glob_aux (name.length + pattern.length + 1) name.toList pattern.toList

/-- `fnmatch.filter(names, pattern)`: order-preserving filter. -/
def fn_filter (names : List String) (pattern : String) : List String :=
  names.filter (fun nm => fn_match nm pattern)

/-- Python's `c in pattern` membership test on a string. -/
def str_has_char (s : String) (c : Char) : Bool :=
  s.toList.contains c

/-- `ExecutionInstance.find_optional_files(pattern)`: with a `*` or `?` in
the pattern, glob-filters the sqlite Data Store references (the source
notes that only sqlite files are checked), the Data Connection references
and files, and the Tool output files; otherwise falls back to
`find_file`. -/
def find_optional_files (rs : ResourceState) (pattern : String) : List String :=
  if str_has_char pattern '*' || str_has_char pattern '?' then
    fn_filter (ds_refs_get rs "sqlite") pattern ++
    fn_filter rs.dc_refs pattern ++
    fn_filter rs.dc_files pattern ++
    fn_filter rs.tool_output_files pattern
  else
    match find_file rs pattern with
    | some m => [m]
    | none => []

/-- Four fresh items `s, m, p, d` (embedded as `some 0, some 1, some 2,
some 3`) added as singleton graphs. -/
def demo_store : Store :=
  add_dag_node (add_dag_node (add_dag_node (add_dag_node [] (some 0)) (some 1))
    (some 2)) (some 3)

/-- The operation sequence `add_edge(s,m); add_edge(p,m); add_edge(p,d);
add_edge(s,d); remove_edge(s,d)` — every call valid (all nodes were added
fresh, the removed edge exists). -/
def demo_store_final : Option Store :=
  (add_graph_edge demo_store (some 0) (some 1)).bind (fun s1 =>
  (add_graph_edge s1 (some 2) (some 1)).bind (fun s2 =>
  (add_graph_edge s2 (some 2) (some 3)).bind (fun s3 =>
  (add_graph_edge s3 (some 0) (some 3)).bind (fun s4 =>
  remove_graph_edge s4 (some 0) (some 3)))))

/-- C1, partition invariant (code bug): after the valid operation sequence
`add_node s/m/p/d; add_edge(s,m); add_edge(p,m); add_edge(p,d);
add_edge(s,d); remove_edge(s,d)` the node `m` (`some 1`), which was added
and never removed, belongs to TWO graphs of the store, not exactly one:
the closure-based split of `remove_graph_edge` copies `m` into both the
descendant-side and the ancestor-side graph.  This contradicts the
partition invariant claimed by the specification (and the source's own
intent of breaking the graph into two separate DAGs). -/
theorem split_puts_node_in_two_graphs :
    demo_store_final.map (fun s => graphs_containing s (some 1)) = some 2 := by
  decide

/-- C4 counterexample: with `some 0` already present in the store,
`add_dag_node` is not a no-op: the store changes and a second singleton
graph holding the same name appears. -/
theorem add_dag_node_duplicate_not_noop :
    add_dag_node [⟨[some 0], []⟩] (some 0) ≠ [⟨[some 0], []⟩] ∧
    graphs_containing (add_dag_node [⟨[some 0], []⟩] (some 0)) (some 0) = 2 := by
  decide

/-- C4 amended: `add_dag_node(name)` performs no existence check at all —
even when the name already lives in some graph, the call appends a fresh
singleton graph with that name, so the store always changes and the count
of graphs holding the name always grows by one (breaking uniqueness when
the name already existed).  Uniqueness is entirely the caller's burden. -/
theorem add_dag_node_always_appends (s : Store) (n : NodeName)
    (h : ∃ g ∈ s, g.has_node n = true) :
    add_dag_node s n ≠ s ∧
    graphs_containing (add_dag_node s n) n = graphs_containing s n + 1 ∧
    2 ≤ graphs_containing (add_dag_node s n) n := by
  rcases h with ⟨g, hg, hgn⟩
  refine ⟨?_, ?_, ?_⟩
  · intro heq
    have := congrArg List.length heq
    simp [add_dag_node] at this
  · unfold add_dag_node graphs_containing
    simp [List.countP_append, DiGraph.has_node]
  · have h1 : 1 ≤ graphs_containing s n := by
      unfold graphs_containing
      have : 0 < s.countP (fun g => g.has_node n) :=
        List.countP_pos_iff.mpr ⟨g, hg, hgn⟩
      omega
    have h2 : graphs_containing (add_dag_node s n) n =
        graphs_containing s n + 1 := by
      unfold add_dag_node graphs_containing
      simp [List.countP_append, DiGraph.has_node]
    omega

/-- Witness for the amended C4 theorem at a concrete store. -/
theorem add_dag_node_always_appends_witness :
    add_dag_node [⟨[some 5], []⟩] (some 5) ≠ [⟨[some 5], []⟩] ∧
    graphs_containing (add_dag_node [⟨[some 5], []⟩] (some 5)) (some 5) =
      graphs_containing [⟨[some 5], []⟩] (some 5) + 1 ∧
    2 ≤ graphs_containing (add_dag_node [⟨[some 5], []⟩] (some 5)) (some 5) :=
  add_dag_node_always_appends [⟨[some 5], []⟩] (some 5)
    ⟨⟨[some 5], []⟩, by decide, by decide⟩

/-- C5: completion-signal semantics of the driver.  `CONTINUE` (`0`) pops
and starts the next node, or emits the completed signal (`0`) when the
order is exhausted; `FAILED` (`-1`) emits the failed signal immediately,
starting nothing and leaving the remaining order untouched; `STOPPED`
(`-2`) emits the user-stopped signal immediately, likewise abandoning the
remaining nodes. -/
theorem item_execution_finished_semantics :
    (∀ s : ExecState, s.execution_list = [] →
      item_execution_finished s 0 = ⟨s, some 0, false⟩) ∧
    (∀ (s : ExecState) (x : NodeName) (rest : List NodeName),
      s.execution_list = x :: rest →
      item_execution_finished s 0 = ⟨⟨rest, some x⟩, none, true⟩) ∧
    (∀ s : ExecState, item_execution_finished s (-1) = ⟨s, some (-1), false⟩) ∧
    (∀ s : ExecState, item_execution_finished s (-2) = ⟨s, some (-2), false⟩) := by
  refine ⟨?_, ?_, ?_, ?_⟩
  · intro s h
    simp [item_execution_finished, h]
  · intro s x rest h
    simp [item_execution_finished, h]
  · intro s
    simp [item_execution_finished]
  · intro s
    simp [item_execution_finished]

/-- Witness for C5 at concrete driver states. -/
theorem item_execution_finished_semantics_witness :
    item_execution_finished ⟨[], some (some 0)⟩ 0 =
      ⟨⟨[], some (some 0)⟩, some 0, false⟩ ∧
    item_execution_finished ⟨[some 1, some 2], some (some 0)⟩ 0 =
      ⟨⟨[some 2], some (some 1)⟩, none, true⟩ ∧
    item_execution_finished ⟨[some 1], some (some 0)⟩ (-1) =
      ⟨⟨[some 1], some (some 0)⟩, some (-1), false⟩ ∧
    item_execution_finished ⟨[some 1], some (some 0)⟩ (-2) =
      ⟨⟨[some 1], some (some 0)⟩, some (-2), false⟩ :=
  ⟨item_execution_finished_semantics.1 ⟨[], some (some 0)⟩ rfl,
   item_execution_finished_semantics.2.1 ⟨[some 1, some 2], some (some 0)⟩
     (some 1) [some 2] rfl,
   item_execution_finished_semantics.2.2.1 ⟨[some 1], some (some 0)⟩,
   item_execution_finished_semantics.2.2.2 ⟨[some 1], some (some 0)⟩⟩

/-- A two-node directed cycle. -/
def cycle_graph : DiGraph :=
  ⟨[some 0, some 1], [(some 0, some 1), (some 1, some 0)]⟩

/-- C6 counterexample: on the cyclic graph `A→B→A` the ordering
computation returns the bare empty list — it does not return (or carry in
any form) the edges participating in the cycle, although both edges do
participate in one.  The "not a DAG" result is the empty order, with no
cycle-edge diagnostics. -/
theorem cycle_order_carries_no_cycle_edges :
    (calc_exec_order cycle_graph).1 = [] ∧
    spec_cycle_edges cycle_graph = [(some 0, some 1), (some 1, some 0)] ∧
    spec_cycle_edges cycle_graph ≠ [] := by
  decide

/-- C6 amended: for every graph that is not a DAG, `calc_exec_order` never
fails and returns the empty list as its explicit not-a-DAG indicator,
leaving the graph untouched; it reports no cycle edges. -/
theorem non_dag_order_is_empty (g : DiGraph)
    (h : is_directed_acyclic_graph g = false) :
    calc_exec_order g = ([], g) := by
  unfold calc_exec_order
  rw [h]
  simp

/-- Witness for the amended C6 theorem on a concrete self-loop graph. -/
theorem non_dag_order_is_empty_witness :
    calc_exec_order ⟨[some 7], [(some 7, some 7)]⟩ =
      ([], ⟨[some 7], [(some 7, some 7)]⟩) :=
  non_dag_order_is_empty ⟨[some 7], [(some 7, some 7)]⟩ (by decide)

/-- C7 counterexample: calling `stop()` with no running item is not
state-preserving in the claimed sense: besides the "No running item"
message it emits `-2` on `graph_execution_finished_signal`, i.e. it
terminates the run with the user-stopped code. -/
theorem stop_without_running_item_emits :
    ExecState.stop ⟨[], none⟩ = ⟨true, some (-2), none⟩ ∧
    (ExecState.stop ⟨[], none⟩).emitted ≠ none := by
  decide

/-- C7 amended: `stop()` on a run with no running node reports the "No
running item" message to the user AND emits the graph-finished signal with
code `-2` (ending the run as user-stopped); it does not forward a stop
request to any item. -/
theorem stop_no_running_semantics (s : ExecState) (h : s.running_item = none) :
    ExecState.stop s = ⟨true, some (-2), none⟩ := by
  cases s with
  | mk l r =>
    cases r with
    | none => rfl
    | some it => cases h

/-- Witness for the amended C7 theorem. -/
theorem stop_no_running_semantics_witness :
    ExecState.stop ⟨[some 3], none⟩ = ⟨true, some (-2), none⟩ :=
  stop_no_running_semantics ⟨[some 3], none⟩ rfl

/-- C10: `start_execution` pops index 0 unguarded, so it succeeds (popping
the head into `running_item` and starting it) exactly on non-empty
execution lists and raises `IndexError` (embedded as `none`) on empty
ones — unlike the advancement step `item_execution_finished`, which
catches the exhausted case and emits the completed signal instead. -/
theorem start_execution_requires_nonempty :
    (∀ r : Option NodeName, start_execution ⟨[], r⟩ = none) ∧
    (∀ (x : NodeName) (rest : List NodeName) (r : Option NodeName),
      start_execution ⟨x :: rest, r⟩ = some ⟨rest, some x⟩) ∧
    (∀ r : Option NodeName,
      item_execution_finished ⟨[], r⟩ 0 = ⟨⟨[], r⟩, some 0, false⟩) := by
  refine ⟨fun r => rfl, fun x rest r => rfl, fun r => ?_⟩
  simp [item_execution_finished]

/-- A resource state whose only entry is a mysql database reference. -/
def mysql_only_state : ResourceState :=
  ⟨[("mysql", ["srv/db1"])], [], [], []⟩

/-- C8 counterexample: for the wildcard pattern `*`, the mysql database
reference `srv/db1` matches the glob, yet `find_optional_files` returns
nothing — among database references only the sqlite dialect is searched in
the wildcard branch, not "database references of every dialect". -/
theorem wildcard_skips_non_sqlite_dialects :
    find_optional_files mysql_only_state "*" = [] ∧
    fn_match "srv/db1" "*" = true ∧
    ds_refs_get mysql_only_state "mysql" = ["srv/db1"] := by
  decide

/-- C8 amended: for a pattern containing a wildcard (`*` or `?`),
`find_optional_files` returns exactly the locators matching the glob among
the sqlite database references, the data-connection references, the
data-connection files and the tool output files, in that order — database
references of the other dialects (mysql, mssql, postgresql, oracle) are
not searched.  For a pattern with no wildcard it returns exactly the
result of `find_file` (the first resource whose locator's final path
segment equals the pattern), as a zero- or one-element list. -/
theorem find_optional_files_characterized :
    (∀ (rs : ResourceState) (p : String),
      (str_has_char p '*' || str_has_char p '?') = true →
      find_optional_files rs p =
        (ds_refs_get rs "sqlite" ++ rs.dc_refs ++ rs.dc_files ++
          rs.tool_output_files).filter (fun nm => fn_match nm p)) ∧
    (∀ (rs : ResourceState) (p : String),
      (str_has_char p '*' || str_has_char p '?') = false →
      find_optional_files rs p = (find_file rs p).toList) := by
  constructor
  · intro rs p hp
    unfold find_optional_files fn_filter
    rw [if_pos hp]
    simp [List.filter_append]
  · intro rs p hp
    unfold find_optional_files
    rw [if_neg (by simp [hp])]
    cases find_file rs p with
    | none => rfl
    | some m => rfl

/-- Witness for the amended C8 theorem: a wildcard lookup over a mixed
state and an exact-name fallback lookup. -/
theorem find_optional_files_characterized_witness :
    find_optional_files ⟨[("sqlite", ["p/a.db"])], ["q/b.db"], [], ["r/c.txt"]⟩
        "*.db" =
      ((["p/a.db"] ++ ["q/b.db"] ++ [] ++ ["r/c.txt"]).filter
        (fun nm => fn_match nm "*.db")) ∧
    find_optional_files ⟨[("sqlite", ["p/a.db"])], ["q/b.db"], [], ["r/c.txt"]⟩
        "b.db" =
      (find_file ⟨[("sqlite", ["p/a.db"])], ["q/b.db"], [], ["r/c.txt"]⟩
        "b.db").toList := by
  constructor
  · exact (find_optional_files_characterized.1
      ⟨[("sqlite", ["p/a.db"])], ["q/b.db"], [], ["r/c.txt"]⟩ "*.db" (by decide)).trans
      (by decide)
  · exact find_optional_files_characterized.2
      ⟨[("sqlite", ["p/a.db"])], ["q/b.db"], [], ["r/c.txt"]⟩ "b.db" (by decide)

/-- Extracts the path fact from membership in `ancestors`. -/
theorem mem_ancestors_path {g : DiGraph} {a x : NodeName}
    (hx : x ∈ g.ancestors a) : x ≠ a ∧ g.has_path x a = true := by
  have h := List.mem_filter.mp hx
  have h2 := (Bool.and_eq_true _ _).mp h.2
  exact ⟨by simpa using h2.1, h2.2⟩

/-- Extracts the path fact from membership in `descendants`. -/
theorem mem_descendants_path {g : DiGraph} {a x : NodeName}
    (hx : x ∈ g.descendants a) : x ≠ a ∧ g.has_path a x = true := by
  have h := List.mem_filter.mp hx
  have h2 := (Bool.and_eq_true _ _).mp h.2
  exact ⟨by simpa using h2.1, h2.2⟩

theorem has_path_weak_conn {g : DiGraph} {u v : NodeName}
    (h : g.has_path u v = true) : weak_conn g u v :=
  dir_path_weak_conn (has_path_sound h)

/-- C2 amended: `nodes_connected` is sound — whenever it answers true, the
two nodes really are in the same weakly-connected component.  (The
converse direction of the claimed equivalence fails, see the
counterexample.) -/
theorem nodes_connected_sound (g : DiGraph) (a b : NodeName)
    (h : nodes_connected g a b = true) : weak_conn g a b := by
  unfold nodes_connected at h
  rcases Bool.or_eq_true_iff.mp h with h1 | h1
  · rcases List.any_eq_true.mp h1 with ⟨x, hx, hpx⟩
    have hax : weak_conn g a x :=
      weak_conn_symm (has_path_weak_conn (mem_ancestors_path hx).2)
    rcases Bool.or_eq_true_iff.mp hpx with hp | hp
    · exact weak_conn_trans hax (has_path_weak_conn hp)
    · exact weak_conn_trans hax (weak_conn_symm (has_path_weak_conn hp))
  · rcases List.any_eq_true.mp h1 with ⟨x, hx, hpx⟩
    have hax : weak_conn g a x :=
      has_path_weak_conn (mem_descendants_path hx).2
    rcases Bool.or_eq_true_iff.mp hpx with hp | hp
    · exact weak_conn_trans hax (has_path_weak_conn hp)
    · exact weak_conn_trans hax (weak_conn_symm (has_path_weak_conn hp))

/-- Witness for the amended C2 theorem on a concrete two-edge chain. -/
theorem nodes_connected_sound_witness :
    weak_conn ⟨[some 0, some 1, some 2], [(some 0, some 1), (some 1, some 2)]⟩
      (some 0) (some 2) :=
  nodes_connected_sound
    ⟨[some 0, some 1, some 2], [(some 0, some 1), (some 1, some 2)]⟩
    (some 0) (some 2) (by decide)

/-- The graph `s→m, p→m, p→n, d→n`: `s` and `d` are weakly connected
through the alternating chain `s→m←p→n←d`, yet no strict ancestor or
descendant of `s` has a directed path to or from `d`. -/
def probe_graph : DiGraph :=
  ⟨[some 0, some 1, some 2, some 3, some 4],
   [(some 0, some 1), (some 2, some 1), (some 2, some 3), (some 4, some 3)]⟩

/-- C2 counterexample: the distinct in-graph nodes `s` (`some 0`) and `d`
(`some 4`) of `probe_graph` lie in the same weakly-connected component,
but `nodes_connected` answers false — the claimed equivalence with weak
connectivity does not hold. -/
theorem nodes_connected_misses_weak_conn :
    weak_conn probe_graph (some 0) (some 4) ∧
    nodes_connected probe_graph (some 0) (some 4) = false ∧
    (some 0 : NodeName) ≠ some 4 ∧
    probe_graph.has_node (some 0) = true ∧
    probe_graph.has_node (some 4) = true := by
  refine ⟨?_, by decide, by decide, by decide, by decide⟩
  have h1 : undir_step probe_graph (some 0) (some 1) := Or.inl (by decide)
  have h2 : undir_step probe_graph (some 1) (some 2) := Or.inr (by decide)
  have h3 : undir_step probe_graph (some 2) (some 3) := Or.inl (by decide)
  have h4 : undir_step probe_graph (some 3) (some 4) := Or.inr (by decide)
  exact Relation.ReflTransGen.trans (Relation.ReflTransGen.single h1)
    (Relation.ReflTransGen.trans (Relation.ReflTransGen.single h2)
      (Relation.ReflTransGen.trans (Relation.ReflTransGen.single h3)
        (Relation.ReflTransGen.single h4)))

/-- `add_node` on a fresh name appends it. -/
theorem add_node_fresh {g : DiGraph} {n : NodeName} (h : n ∉ g.nodes) :
    g.add_node n = ⟨g.nodes ++ [n], g.edges⟩ := by
  simp [DiGraph.add_node, DiGraph.has_node, h]

/-- `add_edge` between present nodes with a fresh edge appends the edge. -/
theorem add_edge_fresh {g : DiGraph} {u v : NodeName} (hu : u ∈ g.nodes)
    (hv : v ∈ g.nodes) (he : (u, v) ∉ g.edges) :
    g.add_edge u v = ⟨g.nodes, g.edges ++ [(u, v)]⟩ := by
  simp [DiGraph.add_edge, DiGraph.add_node, DiGraph.has_node, DiGraph.has_edge,
    hu, hv, he]

/-- Folding `add_edge none s` over a duplicate-free list of present real
sources appends exactly the dummy edges, in order. -/
theorem foldl_add_edge_dummy (l : List NodeName) (g : DiGraph)
    (hln : ∀ x ∈ l, x ∈ g.nodes) (hld : l.Nodup)
    (hg : (none : NodeName) ∈ g.nodes)
    (hno : ∀ x ∈ l, ((none : NodeName), x) ∉ g.edges) :
    l.foldl (fun h s => h.add_edge none s) g =
      ⟨g.nodes, g.edges ++ l.map (fun s => ((none : NodeName), s))⟩ := by
  induction l generalizing g with
  | nil => simp
  | cons s t ih =>
    have hstep : g.add_edge none s = ⟨g.nodes, g.edges ++ [(none, s)]⟩ :=
      add_edge_fresh hg (hln s (by simp)) (hno s (by simp))
    rw [List.foldl_cons, hstep]
    have hnod := List.nodup_cons.mp hld
    rw [ih ⟨g.nodes, g.edges ++ [(none, s)]⟩
      (fun x hx => hln x (by simp [hx])) hnod.2 hg ?hno2]
    · simp
    case hno2 =>
      intro x hxt hx
      rcases List.mem_append.mp hx with h | h
      · exact hno x (by simp [hxt]) h
      · have hxs : x = s := by simpa using h
        exact hnod.1 (hxs ▸ hxt)

/-- Folding `remove_edge none s` over the same duplicate-free list peels
the dummy edges back off, leaving the real edge list intact. -/
theorem foldl_remove_edge_dummy (l : List NodeName)
    (nodes0 : List NodeName) (edges0 : List (NodeName × NodeName))
    (hE : ∀ e ∈ edges0, e.1 ≠ (none : NodeName)) (hld : l.Nodup) :
    l.foldl (fun h s => h.remove_edge none s)
      (DiGraph.mk nodes0 (edges0 ++ l.map (fun s => ((none : NodeName), s)))) =
      DiGraph.mk nodes0 edges0 := by
  induction l generalizing edges0 with
  | nil => simp
  | cons s t ih =>
    have hnod := List.nodup_cons.mp hld
    rw [List.foldl_cons]
    have hstep :
        DiGraph.remove_edge
          (DiGraph.mk nodes0 (edges0 ++ (s :: t).map (fun s => ((none : NodeName), s))))
          none s =
        DiGraph.mk nodes0 (edges0 ++ t.map (fun s => ((none : NodeName), s))) := by
      unfold DiGraph.remove_edge
      congr 1
      rw [List.map_cons, List.filter_append]
      have h1 : edges0.filter (fun e => e ≠ ((none : NodeName), s)) = edges0 := by
        apply List.filter_eq_self.mpr
        intro e hee
        simp only [ne_eq, decide_not, Bool.not_eq_eq_eq_not, Bool.not_true,
          decide_eq_false_iff_not]
        intro hcontra
        exact hE e hee (by rw [hcontra])
      have h2 : (((none : NodeName), s) :: t.map (fun x => ((none : NodeName), x))).filter
          (fun e => e ≠ ((none : NodeName), s)) =
          t.map (fun x => ((none : NodeName), x)) := by
        rw [List.filter_cons]
        simp only [ne_eq, not_true_eq_false, decide_eq_true_eq, if_neg,
          decide_not]
        rw [if_neg (by simp)]
        apply List.filter_eq_self.mpr
        intro e hee
        rcases List.mem_map.mp hee with ⟨x, hx, hxe⟩
        simp only [ne_eq, decide_not, Bool.not_eq_eq_eq_not, Bool.not_true,
          decide_eq_false_iff_not]
        intro hcontra
        rw [← hxe] at hcontra
        have : x = s := by simpa using congrArg Prod.snd hcontra
        exact hnod.1 (this ▸ hx)
      rw [h1, h2]
    rw [hstep]
    exact ih edges0 hE hnod.2

/-- C9: `calc_exec_order` leaves its input graph unchanged.  Even in the
multiple-source branch — which temporarily inserts the dummy source node
`0` (embedded as `none`) and an edge from it to every real source — the
node list and edge list of the graph when the method returns equal those
before the call.  The hypotheses record that the graph holds string-named
(`some`-embedded) project items without duplicates, as every graph of the
handler does. -/
theorem calc_exec_order_preserves_graph (g : DiGraph)
    (hn : (none : NodeName) ∉ g.nodes)
    (he : ∀ e ∈ g.edges, e.1 ≠ (none : NodeName) ∧ e.2 ≠ (none : NodeName))
    (hnd : g.nodes.Nodup) :
    (calc_exec_order g).2 = g := by
  unfold calc_exec_order
  cases hdag : is_directed_acyclic_graph g with
  | false => simp
  | true =>
    simp only [Bool.not_true, Bool.false_eq_true, if_false]
    cases hsrc : source_nodes g with
    | nil => rfl
    | cons s1 tl =>
      cases tl with
      | nil => rfl
      | cons s2 rest =>
        have hsub : ∀ x ∈ source_nodes g, x ∈ g.nodes := by
          intro x hx
          exact (List.mem_filter.mp hx).1
        have hsnd : (source_nodes g).Nodup := List.Nodup.filter _ hnd
        rw [hsrc] at hsub hsnd
        have h1 : g.add_node none = ⟨g.nodes ++ [none], g.edges⟩ :=
          add_node_fresh hn
        have h2 : (s1 :: s2 :: rest).foldl (fun h s => h.add_edge none s)
            (DiGraph.mk (g.nodes ++ [none]) g.edges) =
            DiGraph.mk (g.nodes ++ [none]) (g.edges ++ (s1 :: s2 :: rest).map
              (fun s => ((none : NodeName), s))) := by
          apply foldl_add_edge_dummy
          · intro x hx
            exact List.mem_append.mpr (Or.inl (hsub x hx))
          · exact hsnd
          · exact List.mem_append.mpr (Or.inr (by simp))
          · intro x hx hmem
            exact (he _ hmem).1 rfl
        have h3 : (s1 :: s2 :: rest).foldl (fun h s => h.remove_edge none s)
            (DiGraph.mk (g.nodes ++ [none]) (g.edges ++ (s1 :: s2 :: rest).map
              (fun s => ((none : NodeName), s)))) =
            DiGraph.mk (g.nodes ++ [none]) g.edges := by
          apply foldl_remove_edge_dummy
          · intro e hee
            exact (he e hee).1
          · exact hsnd
        have h4 : DiGraph.remove_node (DiGraph.mk (g.nodes ++ [none]) g.edges)
            none = g := by
          unfold DiGraph.remove_node
          have hn1 : (g.nodes ++ [none]).filter
              (fun x => x ≠ (none : NodeName)) = g.nodes := by
            rw [List.filter_append]
            have : g.nodes.filter (fun x => x ≠ (none : NodeName)) = g.nodes := by
              apply List.filter_eq_self.mpr
              intro x hx
              simp only [ne_eq, decide_not, Bool.not_eq_eq_eq_not, Bool.not_true,
                decide_eq_false_iff_not]
              intro hcontra
              exact hn (hcontra ▸ hx)
            simp only [this, List.filter_cons, List.filter_nil]
            rw [if_neg (by simp)]
            simp
          have hn2 : g.edges.filter
              (fun e => e.1 ≠ (none : NodeName) && e.2 ≠ (none : NodeName)) =
              g.edges := by
            apply List.filter_eq_self.mpr
            intro e hee
            have := he e hee
            simp [this.1, this.2]
          rw [hn1, hn2]
        simp only [h1, h2, h3, h4]

/-- Witness for C9 on a concrete two-source graph (the branch that
mutates and restores the graph). -/
theorem calc_exec_order_preserves_graph_witness :
    (calc_exec_order ⟨[some 1, some 2, some 3],
      [(some 1, some 3), (some 2, some 3)]⟩).2 =
    ⟨[some 1, some 2, some 3], [(some 1, some 3), (some 2, some 3)]⟩ :=
  calc_exec_order_preserves_graph
    ⟨[some 1, some 2, some 3], [(some 1, some 3), (some 2, some 3)]⟩
    (by decide) (by decide) (by decide)

/-- A predicate closed under taking one step backwards along `r` pulls
back along any reflexive-transitive chain. -/
theorem rtg_closed_backward {r : NodeName → NodeName → Prop}
    {P : NodeName → Prop} (hc : ∀ x y, r x y → P y → P x) {a b : NodeName}
    (h : Relation.ReflTransGen r a b) (hb : P b) : P a := by
  induction h using Relation.ReflTransGen.head_induction_on with
  | refl => exact hb
  | head hs _ ih => exact hc _ _ hs ih

/-- A predicate closed under taking one step forwards along `r` pushes
forward along any reflexive-transitive chain. -/
theorem rtg_closed_forward {r : NodeName → NodeName → Prop}
    {P : NodeName → Prop} (hc : ∀ x y, r x y → P x → P y) {a b : NodeName}
    (h : Relation.ReflTransGen r a b) (ha : P a) : P b := by
  induction h with
  | refl => exact ha
  | tail _ hs ih => exact hc _ _ hs ih

theorem two_le_length_of_two_mem {α : Type} {l : List α} {x y : α}
    (hx : x ∈ l) (hy : y ∈ l) (hxy : x ≠ y) : 2 ≤ l.length := by
  match l with
  | [] => cases hx
  | [a] =>
    rw [List.mem_singleton] at hx hy
    exact absurd (hx.trans hy.symm) hxy
  | a :: b :: t => simp only [List.length_cons]; omega

theorem all_eq_singleton {α : Type} {l : List α} {x : α} (hnd : l.Nodup)
    (hx : x ∈ l) (hall : ∀ y ∈ l, y = x) : l = [x] := by
  match l with
  | [] => cases hx
  | [a] => rw [hall a (by simp)]
  | a :: b :: t =>
    exfalso
    have ha := hall a (by simp)
    have hb := hall b (by simp)
    have hab : a = b := ha.trans hb.symm
    subst hab
    exact (List.nodup_cons.mp hnd).1 (by simp)

theorem all_eq_nil_of_not_mem {α : Type} {l : List α} {x : α}
    (hall : ∀ y ∈ l, y = x) (hx : x ∉ l) : l = [] := by
  cases l with
  | nil => rfl
  | cons a t =>
    exfalso
    exact hx ((hall a (by simp)) ▸ List.mem_cons_self a t)

theorem has_edge_iff_mem {g : DiGraph} {u v : NodeName} :
    g.has_edge u v = true ↔ (u, v) ∈ g.edges := by
  simp [DiGraph.has_edge]

theorem mem_remove_edge {g : DiGraph} {u v : NodeName}
    {f : NodeName × NodeName} :
    f ∈ (g.remove_edge u v).edges ↔ f ∈ g.edges ∧ f ≠ (u, v) := by
  simp [DiGraph.remove_edge]

/-- Under the spec's self-loop-aware isolation notion, every edge incident
to the node is its self-loop. -/
theorem spec_isolated_incident {g : DiGraph}
    {n : NodeName} (hiso : spec_isolated g n) :
    ∀ e ∈ g.edges, e.1 = n ∨ e.2 = n → e = (n, n) := by
  intro e hee hinc
  unfold spec_isolated DiGraph.degree DiGraph.out_degree DiGraph.in_degree
    at hiso
  rw [List.countP_eq_length_filter, List.countP_eq_length_filter] at hiso
  by_cases hself : ((n, n) ∈ g.edges)
  · rw [if_pos hself] at hiso
    by_contra hcon
    have hm1 : (n, n) ∈ g.edges.filter (fun e => decide (e.1 = n)) :=
      List.mem_filter.mpr ⟨hself, by simp⟩
    have hm2 : (n, n) ∈ g.edges.filter (fun e => decide (e.2 = n)) :=
      List.mem_filter.mpr ⟨hself, by simp⟩
    rcases hinc with h1 | h2
    · have he1 : e ∈ g.edges.filter (fun e => decide (e.1 = n)) :=
        List.mem_filter.mpr ⟨hee, by simp [h1]⟩
      have hl1 := two_le_length_of_two_mem he1 hm1 hcon
      have hl2 := List.length_pos.mpr (List.ne_nil_of_mem hm2)
      omega
    · have he2 : e ∈ g.edges.filter (fun e => decide (e.2 = n)) :=
        List.mem_filter.mpr ⟨hee, by simp [h2]⟩
      have hl2 := two_le_length_of_two_mem he2 hm2 hcon
      have hl1 := List.length_pos.mpr (List.ne_nil_of_mem hm1)
      omega
  · rw [if_neg hself] at hiso
    exfalso
    rcases hinc with h1 | h2
    · have he1 : e ∈ g.edges.filter (fun e => decide (e.1 = n)) :=
        List.mem_filter.mpr ⟨hee, by simp [h1]⟩
      have := List.length_pos.mpr (List.ne_nil_of_mem he1)
      omega
    · have he2 : e ∈ g.edges.filter (fun e => decide (e.2 = n)) :=
        List.mem_filter.mpr ⟨hee, by simp [h2]⟩
      have := List.length_pos.mpr (List.ne_nil_of_mem he2)
      omega

theorem is_isolate_iff {g : DiGraph} {n : NodeName} :
    g.is_isolate n = true ↔ g.degree n = 0 := by
  simp [DiGraph.is_isolate]

/-- A degree-zero node has no incident edge at all. -/
theorem isolate_no_incident {g : DiGraph} {n : NodeName}
    (h : g.is_isolate n = true) :
    ∀ e ∈ g.edges, e.1 ≠ n ∧ e.2 ≠ n := by
  have hd := is_isolate_iff.mp h
  unfold DiGraph.degree DiGraph.out_degree DiGraph.in_degree at hd
  have h1 : g.edges.countP (fun e => decide (e.1 = n)) = 0 := by omega
  have h2 : g.edges.countP (fun e => decide (e.2 = n)) = 0 := by omega
  intro e hee
  constructor
  · intro hc
    have := List.countP_eq_zero.mp h1 e hee
    simp [hc] at this
  · intro hc
    have := List.countP_eq_zero.mp h2 e hee
    simp [hc] at this

/-- A degree-zero node in particular has no self-loop. -/
theorem isolate_no_self_loop {g : DiGraph} {n : NodeName}
    (h : g.is_isolate n = true) : (n, n) ∉ g.edges := by
  intro hmem
  exact (isolate_no_incident h (n, n) hmem).1 rfl

/-- A spec-isolated node of nonzero degree carries its self-loop. -/
theorem spec_isolated_self_loop {g : DiGraph}
    {n : NodeName} (hiso : spec_isolated g n)
    (hni : g.is_isolate n = false) : (n, n) ∈ g.edges := by
  have hd : g.degree n ≠ 0 := by
    intro hc
    rw [← is_isolate_iff] at hc
    rw [hni] at hc
    cases hc
  unfold DiGraph.degree DiGraph.out_degree DiGraph.in_degree at hd
  have : 0 < g.edges.countP (fun e => decide (e.1 = n)) ∨
      0 < g.edges.countP (fun e => decide (e.2 = n)) := by omega
  rcases this with hp | hp
  · rcases List.countP_pos_iff.mp hp with ⟨f, hf, hfp⟩
    have hf1 : f.1 = n := by simpa using hfp
    have := spec_isolated_incident hiso f hf (Or.inl hf1)
    exact this ▸ hf
  · rcases List.countP_pos_iff.mp hp with ⟨f, hf, hfp⟩
    have hf2 : f.2 = n := by simpa using hfp
    have := spec_isolated_incident hiso f hf (Or.inr hf2)
    exact this ▸ hf

/-- No non-trivial directed path reaches a spec-isolated node. -/
theorem has_path_to_spec_isolated {g : DiGraph} {n x : NodeName}
    (hiso : spec_isolated g n) (hx : x ≠ n) : g.has_path x n = false := by
  cases hval : g.has_path x n with
  | false => rfl
  | true =>
    exfalso
    have hstep : ∀ u v, dir_step g u v → v = n → u = n := by
      intro u v huv hv
      subst hv
      have := spec_isolated_incident hiso (u, v) huv (Or.inr rfl)
      simpa using congrArg Prod.fst this
    exact hx (rtg_closed_backward hstep (has_path_sound hval) rfl)

/-- No non-trivial directed path leaves a spec-isolated node. -/
theorem has_path_from_spec_isolated {g : DiGraph} {n x : NodeName}
    (hiso : spec_isolated g n) (hx : x ≠ n) : g.has_path n x = false := by
  cases hval : g.has_path n x with
  | false => rfl
  | true =>
    exfalso
    have hstep : ∀ u v, dir_step g u v → u = n → v = n := by
      intro u v huv hu
      subst hu
      have := spec_isolated_incident hiso (u, v) huv (Or.inl rfl)
      simpa using congrArg Prod.snd this
    exact hx (rtg_closed_forward hstep (has_path_sound hval) rfl)

/-- A spec-isolated node has no strict ancestors. -/
theorem ancestors_of_spec_isolated {g : DiGraph} {n : NodeName}
    (hiso : spec_isolated g n) : g.ancestors n = [] := by
  unfold DiGraph.ancestors
  apply List.filter_eq_nil_iff.mpr
  intro x hx
  by_cases hxe : x = n
  · simp [hxe]
  · simp [hxe, has_path_to_spec_isolated hiso hxe]

/-- A spec-isolated node has no strict descendants. -/
theorem descendants_of_spec_isolated {g : DiGraph} {n : NodeName}
    (hiso : spec_isolated g n) : g.descendants n = [] := by
  unfold DiGraph.descendants
  apply List.filter_eq_nil_iff.mpr
  intro x hx
  by_cases hxe : x = n
  · simp [hxe]
  · simp [hxe, has_path_from_spec_isolated hiso hxe]

/-- With a spec-isolated source endpoint, the connectivity probe has
nothing to enumerate and answers false. -/
theorem nodes_connected_spec_isolated_left {g : DiGraph} {a b : NodeName}
    (hiso : spec_isolated g a) : nodes_connected g a b = false := by
  unfold nodes_connected
  rw [ancestors_of_spec_isolated hiso, descendants_of_spec_isolated hiso]
  rfl

/-- With a spec-isolated destination endpoint (distinct from the source),
every probe of `nodes_connected` fails. -/
theorem nodes_connected_spec_isolated_right {g : DiGraph} {a b : NodeName}
    (hiso : spec_isolated g b) (hab : a ≠ b) :
    nodes_connected g a b = false := by
  cases hval : nodes_connected g a b with
  | false => rfl
  | true =>
    exfalso
    unfold nodes_connected at hval
    have hto : ∀ x, g.has_path x b = true → x = b := by
      intro x hp
      by_contra hxb
      rw [has_path_to_spec_isolated hiso hxb] at hp
      cases hp
    have hfrom : ∀ x, g.has_path b x = true → x = b := by
      intro x hp
      by_contra hxb
      rw [has_path_from_spec_isolated hiso hxb] at hp
      cases hp
    rcases Bool.or_eq_true_iff.mp hval with h1 | h1
    · rcases List.any_eq_true.mp h1 with ⟨x, hx, hpx⟩
      have hanc := mem_ancestors_path hx
      have hxb : x = b := by
        rcases Bool.or_eq_true_iff.mp hpx with hp | hp
        · exact hto x hp
        · exact hfrom x hp
      subst hxb
      exact hab (hfrom a hanc.2)
    · rcases List.any_eq_true.mp h1 with ⟨x, hx, hpx⟩
      have hdes := mem_descendants_path hx
      have hxb : x = b := by
        rcases Bool.or_eq_true_iff.mp hpx with hp | hp
        · exact hto x hp
        · exact hfrom x hp
      subst hxb
      exact hab (hto a hdes.2)

/-- The out-edges at a spec-isolated node with its self-loop are exactly
the self-loop. -/
theorem filter_fst_spec_isolated {g : DiGraph} (hnd : g.edges.Nodup)
    {n : NodeName} (hiso : spec_isolated g n) (hself : (n, n) ∈ g.edges) :
    g.edges.filter (fun e => e.1 = n) = [(n, n)] := by
  apply all_eq_singleton (List.Nodup.filter _ hnd)
  · exact List.mem_filter.mpr ⟨hself, by simp⟩
  · intro y hy
    have h := List.mem_filter.mp hy
    exact spec_isolated_incident hiso y h.1 (Or.inl (by simpa using h.2))

theorem out_edges_of_nil (g : DiGraph) : out_edges_of g [] = [] := rfl

theorem out_edges_of_single (g : DiGraph) (n : NodeName) :
    out_edges_of g [n] = g.edges.filter (fun e => e.1 = n) := by
  simp [out_edges_of]

theorem graph_from_edges_self_loop (n : NodeName) :
    graph_from_edges [(n, n)] = ⟨[n], [(n, n)]⟩ := by
  simp [graph_from_edges, DiGraph.add_edge, DiGraph.add_node, DiGraph.has_node,
    DiGraph.has_edge]

/-- The closure graph that `remove_graph_edge` builds around a
spec-isolated endpoint carrying its self-loop collapses to the singleton
graph with that self-loop. -/
theorem closure_graph_of_spec_isolated {g : DiGraph} (hnd : g.edges.Nodup)
    {n : NodeName} (hiso : spec_isolated g n) (hself : (n, n) ∈ g.edges) :
    descendant_closure_graph g n = ⟨[n], [(n, n)]⟩ := by
  unfold descendant_closure_graph
  rw [ancestors_of_spec_isolated hiso, descendants_of_spec_isolated hiso,
    out_edges_of_nil, out_edges_of_single, filter_fst_spec_isolated hnd hiso hself]
  simp [graph_from_edges_self_loop]

/-- `find?` skips a prefix on which the predicate fails. -/
theorem find_skip_front {α : Type} (p : α → Bool) (l1 l2 : List α)
    (h : ∀ x ∈ l1, p x = false) : (l1 ++ l2).find? p = l2.find? p := by
  induction l1 with
  | nil => rfl
  | cons a t ih =>
    rw [List.cons_append, List.find?_cons_of_neg _ (by simp [h a (by simp)]),
      ih (fun x hx => h x (by simp [hx]))]

/-- `dag_with_node` finds the first graph holding the node. -/
theorem dag_with_node_at {pre rest : Store} {d : DiGraph} {n : NodeName}
    (hpre : ∀ g ∈ pre, g.has_node n = false) (hd : d.has_node n = true) :
    dag_with_node (pre ++ d :: rest) n = some d := by
  unfold dag_with_node
  rw [find_skip_front _ _ _ hpre]
  simp [List.find?_cons, hd]

/-- `node_is_isolated` with the default flag, when the node's first (and
only) graph is `d`, computes `nx.is_isolate` on `d`. -/
theorem node_is_isolated_at {pre rest : Store} {d : DiGraph} {n : NodeName}
    (hpre : ∀ g ∈ pre, g.has_node n = false) (hd : d.has_node n = true) :
    node_is_isolated (pre ++ d :: rest) n false = some (d.is_isolate n) := by
  unfold node_is_isolated
  rw [dag_with_node_at hpre hd]
  rfl

/-- One skipping step of the `rge_go` scan. -/
theorem rge_go_cons_skip (a b : NodeName) (acc : Store) (d : DiGraph)
    (l : Store) (hd : d.has_edge a b = false) :
    rge_go a b acc (d :: l) = rge_go a b (acc ++ [d]) l := by
  rw [rge_go]
  rw [hd]
  simp

/-- The scan of `rge_go` walks past graphs lacking the edge. -/
theorem rge_go_skip (a b : NodeName) (acc pre rest : Store)
    (h : ∀ g ∈ pre, g.has_edge a b = false) :
    rge_go a b acc (pre ++ rest) = rge_go a b (acc ++ pre) rest := by
  induction pre generalizing acc with
  | nil => simp
  | cons d t ih =>
    rw [List.cons_append]
    rw [rge_go_cons_skip a b acc d (t ++ rest) (h d (by simp)),
      ih (acc ++ [d]) (fun g hg => h g (by simp [hg]))]
    simp

/-- Control-flow reduction of `remove_graph_edge` for a non-self-loop edge
found in graph `d` (the first graph holding the edge, with the endpoints
living only there): the result is the pure case split of the source —
isolated `src` split off, else isolated `dst` split off, else keep if
still `nodes_connected`, else replace by the two closure graphs. -/
theorem remove_graph_edge_eq (pre rest : Store) (d : DiGraph) (a b : NodeName)
    (hpre : ∀ g ∈ pre, g.has_edge a b = false)
    (hE : d.has_edge a b = true) (hab : a ≠ b)
    (hpa : ∀ g ∈ pre, g.has_node a = false)
    (hpb : ∀ g ∈ pre, g.has_node b = false)
    (hna : (d.remove_edge a b).has_node a = true)
    (hnb : (d.remove_edge a b).has_node b = true) :
    remove_graph_edge (pre ++ d :: rest) a b = some (
      if (d.remove_edge a b).is_isolate a then
        pre ++ (d.remove_edge a b).remove_node a :: rest ++ [⟨[a], []⟩]
      else if (d.remove_edge a b).is_isolate b then
        pre ++ (d.remove_edge a b).remove_node b :: rest ++ [⟨[b], []⟩]
      else if nodes_connected (d.remove_edge a b) a b then
        pre ++ (d.remove_edge a b) :: rest
      else
        pre ++ rest ++ [descendant_closure_graph (d.remove_edge a b) a,
          descendant_closure_graph (d.remove_edge a b) b]) := by
  unfold remove_graph_edge
  rw [rge_go_skip a b [] pre (d :: rest) hpre]
  rw [List.nil_append]
  rw [rge_go]
  rw [hE]
  rw [if_pos rfl, if_neg hab]
  dsimp only
  rw [node_is_isolated_at hpa hna]
  cases h1 : (d.remove_edge a b).is_isolate a with
  | true => simp
  | false =>
    rw [node_is_isolated_at hpb hnb]
    cases h2 : (d.remove_edge a b).is_isolate b with
    | true => simp
    | false =>
      cases h3 : nodes_connected (d.remove_edge a b) a b with
      | true => simp
      | false => simp

theorem not_mem_has_edge_false {g : DiGraph} {u v : NodeName}
    (h : (u, v) ∉ g.edges) : g.has_edge u v = false := by
  cases hc : g.has_edge u v with
  | false => rfl
  | true => exact absurd (list_contains_mem hc) h

/-- If all edges touching the pair `{a, b}` stay inside the pair, weak
connectivity to `a` confines every node to the pair. -/
theorem nodes_in_pair {d : DiGraph} {a b : NodeName}
    (hconn : ∀ x ∈ d.nodes, weak_conn d x a)
    (hinc : ∀ e ∈ d.edges, e.1 = a ∨ e.1 = b ∨ e.2 = a ∨ e.2 = b →
      (e.1 = a ∨ e.1 = b) ∧ (e.2 = a ∨ e.2 = b)) :
    ∀ x ∈ d.nodes, x = a ∨ x = b := by
  intro x hx
  have hc : ∀ u v, undir_step d u v → (v = a ∨ v = b) → (u = a ∨ u = b) := by
    intro u v huv hv
    rcases huv with he | he
    · have := hinc (u, v) he (by
        rcases hv with h | h
        · exact Or.inr (Or.inr (Or.inl h))
        · exact Or.inr (Or.inr (Or.inr h)))
      exact this.1
    · have := hinc (v, u) he (by
        rcases hv with h | h
        · exact Or.inl h
        · exact Or.inr (Or.inl h))
      exact this.2
  exact rtg_closed_backward hc (hconn x hx) (Or.inl rfl)

theorem filter_ne_pair {l : List NodeName} {p q : NodeName} (hnd : l.Nodup)
    (hsub : ∀ x ∈ l, x = p ∨ x = q) (hq : q ∈ l) (hqp : q ≠ p) :
    l.filter (fun x => x ≠ p) = [q] := by
  apply all_eq_singleton (List.Nodup.filter _ hnd)
  · exact List.mem_filter.mpr ⟨hq, by simp [hqp]⟩
  · intro y hy
    have h := List.mem_filter.mp hy
    rcases hsub y h.1 with h1 | h1
    · exfalso
      have := h.2
      simp [h1] at this
    · exact h1

/-- Removing node `p` from a graph whose nodes are confined to `{p, q}`
and whose edges avoid `p` collapses it to the singleton of `q`,
preserving a self-loop of `q` if there is one. -/
theorem remove_node_to_singleton {d1 : DiGraph} {p q : NodeName}
    (hnn : d1.nodes.Nodup) (hen : d1.edges.Nodup)
    (hq : q ∈ d1.nodes) (hpq : p ≠ q)
    (hsub : ∀ x ∈ d1.nodes, x = p ∨ x = q)
    (hnop : ∀ e ∈ d1.edges, e.1 ≠ p ∧ e.2 ≠ p)
    (hwfe : ∀ e ∈ d1.edges, e.1 ∈ d1.nodes ∧ e.2 ∈ d1.nodes) :
    d1.remove_node p =
      ⟨[q], if (q, q) ∈ d1.edges then [(q, q)] else []⟩ := by
  have hall : ∀ e ∈ d1.edges, e = (q, q) := by
    intro e he
    have h1 := hwfe e he
    have h2 := hnop e he
    have e1 : e.1 = q := by
      rcases hsub e.1 h1.1 with h | h
      · exact absurd h h2.1
      · exact h
    have e2 : e.2 = q := by
      rcases hsub e.2 h1.2 with h | h
      · exact absurd h h2.2
      · exact h
    exact Prod.ext_iff.mpr ⟨e1, e2⟩
  unfold DiGraph.remove_node
  have hnodes : d1.nodes.filter (fun x => x ≠ p) = [q] :=
    filter_ne_pair hnn hsub hq (Ne.symm hpq)
  by_cases hself : (q, q) ∈ d1.edges
  · rw [if_pos hself]
    have hedges : d1.edges = [(q, q)] := all_eq_singleton hen hself hall
    rw [hnodes, hedges]
    simp [Ne.symm hpq]
  · rw [if_neg hself]
    have hedges : d1.edges = [] := all_eq_nil_of_not_mem hall hself
    rw [hnodes, hedges]
    rfl

/-- C3: when `remove_graph_edge(src, dst)` removes a non-self-loop edge
from the (first) graph `d` holding it — `d` weakly connected, its
endpoints living in no earlier graph of the store — then every endpoint
`e` that becomes isolated in the spec's self-loop-discounting sense
(degree after removing self-loop pairs equals zero) ends up in a singleton
graph of its own in the resulting store, carrying its self-loop if it has
one.  The code realises this through three different branches (the
`nx.is_isolate` split-offs for loop-free endpoints, the remaining graph
collapsing to a singleton, and the closure-based split for self-looped
endpoints), all covered here. -/
theorem remove_edge_isolated_endpoint_split
    (pre rest : Store) (d : DiGraph) (src dst e : NodeName)
    (hpre : ∀ g ∈ pre, g.has_edge src dst = false)
    (hpa : ∀ g ∈ pre, g.has_node src = false)
    (hpb : ∀ g ∈ pre, g.has_node dst = false)
    (hE : d.has_edge src dst = true)
    (hne : src ≠ dst)
    (hwf : GraphWF d)
    (hconn : ∀ x ∈ d.nodes, weak_conn d x src)
    (hend : e = src ∨ e = dst)
    (hiso : spec_isolated (d.remove_edge src dst) e) :
    ∃ s', remove_graph_edge (pre ++ d :: rest) src dst = some s' ∧
      DiGraph.mk [e] (if (e, e) ∈ (d.remove_edge src dst).edges
        then [(e, e)] else []) ∈ s' := by
  have hmemE : (src, dst) ∈ d.edges := list_contains_mem hE
  have hsrcn : src ∈ d.nodes := (hwf.2.2 _ hmemE).1
  have hdstn : dst ∈ d.nodes := (hwf.2.2 _ hmemE).2
  have hna : (d.remove_edge src dst).has_node src = true := list_mem_contains hsrcn
  have hnb : (d.remove_edge src dst).has_node dst = true := list_mem_contains hdstn
  have hd1nd : (d.remove_edge src dst).edges.Nodup := List.Nodup.filter _ hwf.2.1
  have hd1nn : (d.remove_edge src dst).nodes.Nodup := hwf.1
  have hd1wfe : ∀ f ∈ (d.remove_edge src dst).edges,
      f.1 ∈ (d.remove_edge src dst).nodes ∧ f.2 ∈ (d.remove_edge src dst).nodes := by
    intro f hf
    exact hwf.2.2 f (mem_remove_edge.mp hf).1
  rw [remove_graph_edge_eq pre rest d src dst hpre hE hne hpa hpb hna hnb]
  refine ⟨_, rfl, ?_⟩
  by_cases h1 : (d.remove_edge src dst).is_isolate src = true
  · rw [if_pos h1]
    rcases hend with rfl | rfl
    · have hns : (e, e) ∉ (d.remove_edge e dst).edges := isolate_no_self_loop h1
      rw [if_neg hns]
      simp
    · have hno_src := isolate_no_incident h1
      have hinc_dst := spec_isolated_incident hiso
      have hcf : ∀ f ∈ d.edges, f.1 = src ∨ f.1 = e ∨ f.2 = src ∨ f.2 = e →
          (f.1 = src ∨ f.1 = e) ∧ (f.2 = src ∨ f.2 = e) := by
        intro f hf hI
        by_cases hfe : f = (src, e)
        · rw [hfe]
          exact ⟨Or.inl rfl, Or.inr rfl⟩
        · have hf1 : f ∈ (d.remove_edge src e).edges := mem_remove_edge.mpr ⟨hf, hfe⟩
          rcases hI with h | h | h | h
          · exact absurd h (hno_src f hf1).1
          · have hq := hinc_dst f hf1 (Or.inl h)
            rw [hq]
            exact ⟨Or.inr rfl, Or.inr rfl⟩
          · exact absurd h (hno_src f hf1).2
          · have hq := hinc_dst f hf1 (Or.inr h)
            rw [hq]
            exact ⟨Or.inr rfl, Or.inr rfl⟩
      have hsub : ∀ x ∈ d.nodes, x = src ∨ x = e :=
        nodes_in_pair hconn hcf
      have hsing := remove_node_to_singleton hd1nn hd1nd
        (show e ∈ (d.remove_edge src e).nodes from hdstn) hne hsub hno_src hd1wfe
      rw [hsing]
      simp
  · rw [if_neg h1]
    by_cases h2 : (d.remove_edge src dst).is_isolate dst = true
    · rw [if_pos h2]
      rcases hend with rfl | rfl
      · have hself : (e, e) ∈ (d.remove_edge e dst).edges :=
          spec_isolated_self_loop hiso (by simpa using h1)
        rw [if_pos hself]
        have hno_dst := isolate_no_incident h2
        have hinc_src := spec_isolated_incident hiso
        have hcf : ∀ f ∈ d.edges, f.1 = e ∨ f.1 = dst ∨ f.2 = e ∨ f.2 = dst →
            (f.1 = e ∨ f.1 = dst) ∧ (f.2 = e ∨ f.2 = dst) := by
          intro f hf hI
          by_cases hfe : f = (e, dst)
          · rw [hfe]
            exact ⟨Or.inl rfl, Or.inr rfl⟩
          · have hf1 : f ∈ (d.remove_edge e dst).edges := mem_remove_edge.mpr ⟨hf, hfe⟩
            rcases hI with h | h | h | h
            · have hq := hinc_src f hf1 (Or.inl h)
              rw [hq]
              exact ⟨Or.inl rfl, Or.inl rfl⟩
            · exact absurd h (hno_dst f hf1).1
            · have hq := hinc_src f hf1 (Or.inr h)
              rw [hq]
              exact ⟨Or.inl rfl, Or.inl rfl⟩
            · exact absurd h (hno_dst f hf1).2
        have hsub : ∀ x ∈ d.nodes, x = e ∨ x = dst :=
          nodes_in_pair hconn hcf
        have hsub2 : ∀ x ∈ d.nodes, x = dst ∨ x = e :=
          fun x hx => (hsub x hx).symm
        have hsing := remove_node_to_singleton hd1nn hd1nd
          (show e ∈ (d.remove_edge e dst).nodes from hsrcn) (Ne.symm hne)
          hsub2 hno_dst hd1wfe
        rw [hsing, if_pos hself]
        simp
      · have hns : (e, e) ∉ (d.remove_edge src e).edges := isolate_no_self_loop h2
        rw [if_neg hns]
        simp
    · rw [if_neg h2]
      rcases hend with rfl | rfl
      · have hncf : nodes_connected (d.remove_edge e dst) e dst = false :=
          nodes_connected_spec_isolated_left hiso
        rw [if_neg (by simp [hncf])]
        have hself : (e, e) ∈ (d.remove_edge e dst).edges :=
          spec_isolated_self_loop hiso (by simpa using h1)
        rw [if_pos hself]
        have hcg := closure_graph_of_spec_isolated hd1nd hiso hself
        rw [hcg]
        simp
      · have hncf : nodes_connected (d.remove_edge src e) src e = false :=
          nodes_connected_spec_isolated_right hiso hne
        rw [if_neg (by simp [hncf])]
        have hself : (e, e) ∈ (d.remove_edge src e).edges :=
          spec_isolated_self_loop hiso (by simpa using h2)
        rw [if_pos hself]
        have hcg := closure_graph_of_spec_isolated hd1nd hiso hself
        rw [hcg]
        simp

/-- Witness for C3: removing the edge `(a, b)` from the two-node graph
with edges `a→b` and the self-loop `a→a` leaves `a` spec-isolated; the
resulting store holds the singleton graph of `a` with its self-loop
preserved. -/
theorem remove_edge_isolated_endpoint_split_witness :
    ∃ s', remove_graph_edge [⟨[some 0, some 1],
        [(some 0, some 1), (some 0, some 0)]⟩] (some 0) (some 1) = some s' ∧
      DiGraph.mk [some 0]
        (if ((some 0 : NodeName), (some 0 : NodeName)) ∈
            (DiGraph.remove_edge ⟨[some 0, some 1],
              [(some 0, some 1), (some 0, some 0)]⟩ (some 0) (some 1)).edges
          then [(some 0, some 0)] else []) ∈ s' :=
  remove_edge_isolated_endpoint_split [] []
    ⟨[some 0, some 1], [(some 0, some 1), (some 0, some 0)]⟩
    (some 0) (some 1) (some 0)
    (by simp) (by simp) (by simp) (by decide) (by decide)
    (by unfold GraphWF; refine ⟨by decide, by decide, by decide⟩)
    (by
      intro x hx
      cases hx with
      | head => exact Relation.ReflTransGen.refl
      | tail _ hx2 =>
        cases hx2 with
        | head => exact Relation.ReflTransGen.single (Or.inr (by decide))
        | tail _ hx3 => cases hx3)
    (Or.inl rfl) (by unfold spec_isolated; decide)
